import Mathlib

/-!
Verification of the rope text structure (`src/text.rs`).

Modelling conventions:
* A character chunk (`String` in the source) is a `List Char`; lengths count
  scalar character units, as the design operates on those.
* `Text` is the two-variant node type; the `Arc`/`TextNode` indirection is
  flattened: `Branch` carries the node's `left`, `right`, `length`, `depth`
  and `lines` fields directly.  Reference-counted sharing has no observable
  content effect, so values are compared structurally.
* `Text::from_str` and `Text::concat` are mutually recursive in the source
  (via `reorder_leaf`).  They are embedded as fuel-indexed functions
  (`fromStrF`, `concatF`, both components of `ropeF`); the top-level
  `fromStr` and `concat` apply a concrete fuel bound, and the development
  proves that the bound is enough: any larger fuel computes the same
  value (see the stabilization theorems), which is exactly the
  termination of the source recursion.
-/

abbrev Str := List Char

def LEAF_MAX : Nat := 1000

inductive Text where
  | Leaf (s : Str)
  | Branch (left right : Text) (length depth lines : Nat)
deriving DecidableEq

namespace Text

/-- Model of `Text::new` -/
def new : Text := Leaf []

/-- Model of `Text::len` (cached on a Branch). -/
def len : Text → Nat
  | Leaf s => s.length
  | Branch _ _ length _ _ => length

/-- Model of `Text::lines` (cached on a Branch, counted on a Leaf). -/
def lines : Text → Nat
  | Leaf s => (s.filter (fun c => c = '\n')).length
  | Branch _ _ _ _ lines => lines

/-- Model of `Text::depth` -/
def depth : Text → Nat
  | Leaf _ => 0
  | Branch _ _ _ depth _ => depth

/-- Model of `Text::is_leaf` -/
def isLeaf : Text → Bool
  | Leaf _ => true
  | Branch _ _ _ _ _ => false

/-- Model of `Text::to_string`: the content, read front-to-back. -/
def toString : Text → Str
  | Leaf s => s
  | Branch l r _ _ _ => l.toString ++ r.toString

/-- Model of `Iterator::position` on a character sequence (`r.chars().position(p)`). -/
def position (p : Char → Bool) : Str → Option Nat
  | [] => none
  | c :: rest => if p c then some 0 else (position p rest).map (· + 1)

/-- Model of `Text::char_at` -/
def charAt (t : Text) (index : Nat) : Option Char :=
  if t.len ≤ index then none
  else
    match t with
    | Leaf s => (s.drop index).head?
    | Branch l r _ _ _ =>
      if index < l.len then l.charAt index else r.charAt (index - l.len)

/-- Number of nodes of the tree; used only as a fuel bound. -/
def size : Text → Nat
  | Leaf _ => 1
  | Branch l r _ _ _ => 1 + l.size + r.size

/-- The Branch built by `Text::concat`'s fallback arm: aggregates are the
sum (length, lines) / max-plus-one (depth) of the two sides. -/
def mkBranch (left right : Text) : Text :=
  Branch left right (left.len + right.len) (max left.depth right.depth + 1)
    (left.lines + right.lines)

/-- Model of `Text::reorder_leaf`: re-chunk a Leaf through `from_str`, keep a Branch.
Parametrized by the `from_str` of the current fuel level. -/
def reorderLeaf (fs : Str → Text) : Text → Text
  | Leaf s => fs s
  | t => t

/-- The body of `Text::concat` after the two `reorder_leaf` calls:
zero-length short-circuits, the two leaf-coalescing arms, and the
Branch fallback.  `k` is the `concat` of the current fuel level, used by
the right-leaning merge (`node.left.concat(...)` in the source). -/
def concatCore (k : Text → Text → Text) (left right : Text) : Text :=
  if left.len = 0 then right
  else if right.len = 0 then left
  else
    match left, right with
    | Leaf ls, Leaf rs =>
      if ls.length + rs.length < LEAF_MAX ∧ (Leaf ls).charAt (ls.length - 1) ≠ some '\n' then
        Leaf (ls ++ rs)
      else mkBranch left right
    | Branch nl (Leaf ms) nn nd nli, Leaf rs =>
      if (Leaf ms).charAt (ms.length - 1) ≠ some '\n' ∧ ms.length + rs.length < LEAF_MAX then
        k nl (Leaf (ms ++ rs))
      else mkBranch (Branch nl (Leaf ms) nn nd nli) (Leaf rs)
    | l, r => mkBranch l r

/-- Model of `Text::from_str` (first component) and `Text::concat` (second
component), which are mutually recursive in the source, embedded jointly
with a shared fuel that decreases at every nested call.  `from_str`
splits the sequence after the first newline when one occurs before the
last character, else at the midpoint when longer than `LEAF_MAX`, else
keeps a single Leaf; `concat` normalizes both sides, then dispatches. -/
def ropeF : Nat → (Str → Text) × (Text → Text → Text)
  | 0 => (fun _ => Leaf [], fun _ _ => Leaf [])
  | fuel + 1 =>
    ( fun r =>
        match position (fun c => c = '\n') r with
        | some lf =>
          if lf < r.length - 1 then
            (ropeF fuel).2 (Leaf (r.take (lf + 1))) (Leaf (r.drop (lf + 1)))
          else if LEAF_MAX < r.length then
            (ropeF fuel).2 (Leaf (r.take (r.length / 2))) (Leaf (r.drop (r.length / 2)))
          else Leaf r
        | none =>
          if LEAF_MAX < r.length then
            (ropeF fuel).2 (Leaf (r.take (r.length / 2))) (Leaf (r.drop (r.length / 2)))
          else Leaf r,
      fun a b =>
        concatCore (ropeF fuel).2
          (reorderLeaf (ropeF fuel).1 a) (reorderLeaf (ropeF fuel).1 b) )

/-- Model of `Text::from_str` at a given fuel. -/
def fromStrF (fuel : Nat) : Str → Text := (ropeF fuel).1

/-- Model of `Text::concat` at a given fuel. -/
def concatF (fuel : Nat) : Text → Text → Text := (ropeF fuel).2


/-- Model of `Text::from_str` with its (proved sufficient) fuel bound. -/
def fromStr (r : Str) : Text := fromStrF (4 * r.length + 4) r

/-- Model of `Text::concat` with its (proved sufficient) fuel bound. -/
def concat (a b : Text) : Text :=
  concatF (a.size + b.size + 4 * (a.toString.length + b.toString.length) + 8) a b

/-- Model of `Text::substr` -/
def substr (t : Text) (start len : Nat) : Text :=
  match t with
  | Leaf s => Leaf ((s.drop start).take len)
  | Branch l r _ _ _ =>
    let rll := l.len
    let left := if start = 0 ∧ rll ≤ len then l else l.substr start len
    let ll := left.len
    let right :=
      if start ≤ rll ∧ rll + r.len ≤ start + len then r
      else r.substr (if rll < start then start - rll else 0)
                    (if ll < len then len - ll else 0)
    left.concat right

/-- Model of `Text::take_left` -/
def takeLeft (t : Text) (count : Nat) : Text × Text :=
  if t.len < count then (t, new)
  else (t.substr 0 count, t.substr count (t.len - count))

/-- Model of `Text::take_right` -/
def takeRight (t : Text) (count : Nat) : Text × Text :=
  if t.len < count then (new, t)
  else (t.substr 0 (t.len - count), t.substr (t.len - count) count)

/-- Model of `Text::insert` -/
def insert (t : Text) (index : Nat) (other : Text) : Text :=
  ((t.substr 0 index).concat other).concat (t.substr index (t.len - index))

/-- Model of `Text::delete` -/
def delete (t : Text) (index count : Nat) : Text :=
  (t.substr 0 index).concat (t.substr (index + count) (t.len - (index + count)))

/-- Model of `Text::insert` with the `usize` subtraction `self.len() - index` checked,
as in a debug build, where `index > len` makes the subtraction underflow
(modelled as `none`) instead of producing a value. -/
def insertChecked (t : Text) (index : Nat) (other : Text) : Option Text :=
  if index ≤ t.len then
    some (((t.substr 0 index).concat other).concat (t.substr index (t.len - index)))
  else none

/-- Model of `Text::find_line` -/
def findLine (t : Text) (line offset : Nat) : Option Nat :=
  if line = 0 then some offset
  else if t.lines ≤ line then none
  else
    match t with
    | Leaf _ => some offset
    | Branch l r _ _ _ =>
      if line < l.lines then l.findLine line offset
      else r.findLine (line - l.lines) (offset + l.len)

/-- Model of `Text::line_pos` -/
def linePos (t : Text) (line : Nat) : Option Nat := t.findLine line 0

/-- Model of `Text::from_line` -/
def fromLine (t : Text) (line : Nat) : Option Text :=
  (t.linePos line).map (fun pos => t.substr pos (t.len - pos))

/-- Model of `Text::line` -/
def line (t : Text) (n : Nat) : Option Text :=
  match t.linePos n, t.linePos (n + 1) with
  | none, _ => none
  | some s, none => some (t.substr s (t.len - s))
  | some s, some e => some (t.substr s (e - s))

/-- Model of `impl PartialEq for Text` on distinct allocations: the identity
short-circuits removed (they only accelerate a `true` answer for values
that are structurally identical anyway), so Leaf strings are compared,
Branch nodes compare `left`, `right`, `length`, `depth`, `lines`. -/
def beq : Text → Text → Bool
  | Leaf l, Leaf r => l = r
  | Branch l1 r1 n1 d1 li1, Branch l2 r2 n2 d2 li2 =>
    beq l1 l2 && beq r1 r2 && n1 = n2 && d1 = d2 && li1 = li2
  | _, _ => false

/-- Number of newline characters in a chunk (the Leaf arm of `Text::lines`). -/
def countNl (s : Str) : Nat := (s.filter (fun c => c = '\n')).length

/-- Leaf chunk discipline: a newline may occur only as the final character
of the chunk. -/
def leafNl (s : Str) : Prop := ∀ i, i + 1 < s.length → s[i]? ≠ some '\n'

instance instDecidableLeafNl (s : Str) : Decidable (leafNl s) :=
  decidable_of_iff (∀ i < s.length - 1, s[i]? ≠ some '\n') (by
    constructor
    · intro h i hi
      exact h i (by omega)
    · intro h i hi
      exact h i (by omega))

/-- The claim's leaf/line-boundary property: every Leaf chunk of the tree
has newlines only as its final character. -/
def leafNlT : Text → Prop
  | Leaf s => leafNl s
  | Branch l r _ _ _ => leafNlT l ∧ leafNlT r

/-- The invariant maintained by the public constructors and combinators:
Leaf chunks obey the newline discipline and the `LEAF_MAX` bound, Branch
children are nonempty, and the three cached aggregates on a Branch are
exactly the sum / max-plus-one of its children's. -/
def inv : Text → Prop
  | Leaf s => leafNl s ∧ s.length ≤ LEAF_MAX
  | Branch l r length d li =>
    inv l ∧ inv r ∧ 1 ≤ l.len ∧ 1 ≤ r.len ∧
    length = l.len + r.len ∧ d = max l.depth r.depth + 1 ∧ li = l.lines + r.lines

instance instDecidableInv : (t : Text) → Decidable (inv t)
  | Leaf s => by unfold inv; infer_instance
  | Branch l r n d li => by
    unfold inv
    have := instDecidableInv l
    have := instDecidableInv r
    infer_instance

/-- The logical line decomposition of a character sequence, following the
spec: maximal newline-terminated segments, plus a trailing partial line
when the sequence does not end with a newline. -/
def linesOf : Str → List Str
  | [] => []
  | c :: rest =>
    match linesOf rest with
    | [] => [[c]]
    | l :: ls => if c = '\n' then [c] :: l :: ls else (c :: l) :: ls

/-! ### Basic lemmas -/

theorem inv_len : ∀ {t : Text}, inv t → t.len = t.toString.length := by
  intro t
  induction t with
  | Leaf s => intro _; rfl
  | Branch l r n d li ihl ihr =>
    intro h
    obtain ⟨hl, hr, -, -, hlen, -, -⟩ := h
    show n = (l.toString ++ r.toString).length
    rw [List.length_append, hlen, ihl hl, ihr hr]

theorem inv_lines : ∀ {t : Text}, inv t → t.lines = countNl t.toString := by
  intro t
  induction t with
  | Leaf s => intro _; rfl
  | Branch l r n d li ihl ihr =>
    intro h
    obtain ⟨hl, hr, -, -, -, -, hli⟩ := h
    show li = countNl (l.toString ++ r.toString)
    unfold countNl
    rw [List.filter_append, List.length_append, hli, ihl hl, ihr hr]
    rfl

theorem inv_leafNlT : ∀ {t : Text}, inv t → leafNlT t := by
  intro t
  induction t with
  | Leaf s => intro h; exact h.1
  | Branch l r n d li ihl ihr =>
    intro h
    exact ⟨ihl h.1, ihr h.2.1⟩

theorem position_some_mem {p : Char → Bool} :
    ∀ {s : Str} {i : Nat}, position p s = some i → ∃ c, s[i]? = some c ∧ p c = true := by
  intro s
  induction s with
  | nil => intro i h; simp [position] at h
  | cons c rest ih =>
    intro i h
    by_cases hc : p c
    · simp [position, hc] at h
      subst h
      exact ⟨c, by simp, hc⟩
    · simp [position, hc] at h
      obtain ⟨j, hj, rfl⟩ := h
      obtain ⟨d, hd, hpd⟩ := ih hj
      exact ⟨d, by simpa using hd, hpd⟩

theorem position_some_lt {p : Char → Bool} :
    ∀ {s : Str} {i : Nat}, position p s = some i →
      ∀ (j : Nat), j < i → ∀ (c : Char), s[j]? = some c → p c = false := by
  intro s
  induction s with
  | nil => intro i h; simp [position] at h
  | cons c rest ih =>
    intro i h j hj d hd
    by_cases hc : p c
    · simp [position, hc] at h
      omega
    · simp [position, hc] at h
      obtain ⟨k, hk, rfl⟩ := h
      match j, hd with
      | 0, hd =>
        simp at hd
        subst hd
        simpa using hc
      | j + 1, hd => exact ih hk j (by omega) d (by simpa using hd)

theorem position_none_all {p : Char → Bool} :
    ∀ {s : Str}, position p s = none → ∀ (i : Nat) (c : Char), s[i]? = some c → p c = false := by
  intro s
  induction s with
  | nil => intro _ i c h; simp at h
  | cons c rest ih =>
    intro h i d hd
    by_cases hc : p c
    · simp [position, hc] at h
    · simp [position, hc] at h
      match i, hd with
      | 0, hd =>
        simp at hd
        subst hd
        simpa using hc
      | i + 1, hd => exact ih h i d (by simpa using hd)

theorem charAt_leaf (s : Str) (i : Nat) : (Leaf s).charAt i = s[i]? := by
  simp only [charAt, len]
  split
  · exact (List.getElem?_eq_none (by omega)).symm
  · exact List.head?_drop s i

theorem size_pos (t : Text) : 1 ≤ t.size := by
  cases t <;> simp [size] <;> omega

theorem toString_mkBranch (L R : Text) :
    (mkBranch L R).toString = L.toString ++ R.toString := rfl

theorem inv_mkBranch {L R : Text} (hL : inv L) (hR : inv R)
    (h1 : 1 ≤ L.len) (h2 : 1 ≤ R.len) : inv (mkBranch L R) :=
  ⟨hL, hR, h1, h2, rfl, rfl, rfl⟩

theorem concatF_succ (f : Nat) (a b : Text) :
    concatF (f + 1) a b =
      concatCore (concatF f) (reorderLeaf (fromStrF f) a) (reorderLeaf (fromStrF f) b) := rfl

/-- A chunk obeying the leaf discipline whose `from_str` analysis finds no
interior newline and fits in `LEAF_MAX` is returned unchanged: re-chunking
is the identity on invariant leaves (at any positive fuel). -/
theorem fromStrF_stable : ∀ {s : Str}, leafNl s → s.length ≤ LEAF_MAX →
    ∀ {f : Nat}, 1 ≤ f → fromStrF f s = Leaf s := by
  intro s h1 h2 f hf
  match f, hf with
  | f + 1, _ =>
    show (ropeF (f + 1)).1 s = Leaf s
    simp only [ropeF]
    cases hp : position (fun c => c = '\n') s with
    | none =>
      simp [show ¬ LEAF_MAX < s.length by omega]
    | some lf =>
      obtain ⟨c, hc, hpc⟩ := position_some_mem hp
      have hcn : c = '\n' := by simpa using hpc
      subst hcn
      have hlf : lf < s.length := by
        rcases List.getElem?_eq_some.mp hc with ⟨h, -⟩
        exact h
      have hnot : ¬ lf < s.length - 1 := fun hcon => h1 lf (by omega) hc
      simp [hnot, show ¬ LEAF_MAX < s.length by omega]

theorem reorderLeaf_stable : ∀ {t : Text}, inv t → ∀ {f : Nat}, 1 ≤ f →
    reorderLeaf (fromStrF f) t = t := by
  intro t ht f hf
  cases t with
  | Leaf s => exact fromStrF_stable ht.1 ht.2 hf
  | Branch l r n d li => rfl

/-- Coalescing two disciplined chunks whose left part does not end in a
newline keeps the leaf discipline. -/
theorem leafNl_coalesce {ls rs : Str} (hls : leafNl ls)
    (hlast : (Leaf ls).charAt (ls.length - 1) ≠ some '\n') (hrs : leafNl rs) :
    leafNl (ls ++ rs) := by
  intro i hi
  rw [List.length_append] at hi
  rw [List.getElem?_append]
  split
  · rename_i hilt
    by_cases h2 : i + 1 < ls.length
    · exact hls i h2
    · have hieq : i = ls.length - 1 := by omega
      subst hieq
      rw [← charAt_leaf]
      exact hlast
  · rename_i hige
    exact hrs (i - ls.length) (by omega)

/-- Central specification of the source `concat` body on invariant inputs
that are already normalized: the result is invariant, its content is the
concatenation of the contents, and the computation is fuel-independent
once the fuel covers the left tree's node count (the right-leaning merge
descends along the left spine only). -/
theorem concatCore_spec : ∀ (f : Nat) (L R : Text), inv L → inv R → L.size ≤ f →
    inv (concatCore (concatF f) L R) ∧
    (concatCore (concatF f) L R).toString = L.toString ++ R.toString ∧
    (∀ (g : Nat), L.size ≤ g → concatCore (concatF g) L R = concatCore (concatF f) L R) := by
  intro f
  induction f with
  | zero =>
    intro L R hL hR hf
    exact absurd hf (by have := size_pos L; omega)
  | succ f ih =>
    intro L R hL hR hf
    by_cases hL0 : L.len = 0
    · have hcc : ∀ (g : Nat), concatCore (concatF g) L R = R := by
        intro g
        unfold concatCore
        simp [hL0]
      have hts : L.toString = [] :=
        List.eq_nil_of_length_eq_zero ((inv_len hL).symm.trans hL0)
      refine ⟨?_, ?_, fun g _ => (hcc g).trans (hcc (f + 1)).symm⟩
      · rw [hcc (f + 1)]
        exact hR
      · rw [hcc (f + 1), hts, List.nil_append]
    · by_cases hR0 : R.len = 0
      · have hcc : ∀ (g : Nat), concatCore (concatF g) L R = L := by
          intro g
          unfold concatCore
          simp [hL0, hR0]
        have hts : R.toString = [] :=
          List.eq_nil_of_length_eq_zero ((inv_len hR).symm.trans hR0)
        refine ⟨?_, ?_, fun g _ => (hcc g).trans (hcc (f + 1)).symm⟩
        · rw [hcc (f + 1)]
          exact hL
        · rw [hcc (f + 1), hts, List.append_nil]
      · have hL1 : 1 ≤ L.len := by omega
        have hR1 : 1 ≤ R.len := by omega
        cases L with
        | Leaf ls =>
          cases R with
          | Leaf rs =>
            by_cases hg : ls.length + rs.length < LEAF_MAX ∧
                (Leaf ls).charAt (ls.length - 1) ≠ some '\n'
            · have hcc : ∀ (g : Nat), concatCore (concatF g) (Leaf ls) (Leaf rs) = Leaf (ls ++ rs) := by
                intro g
                unfold concatCore
                simp [hL0, hR0, hg]
              refine ⟨?_, ?_, fun g _ => (hcc g).trans (hcc (f + 1)).symm⟩
              · rw [hcc (f + 1)]
                exact ⟨leafNl_coalesce hL.1 hg.2 hR.1, by
                  rw [List.length_append]; omega⟩
              · rw [hcc (f + 1)]
                rfl
            · have hcc : ∀ (g : Nat),
                  concatCore (concatF g) (Leaf ls) (Leaf rs) = mkBranch (Leaf ls) (Leaf rs) := by
                intro g
                unfold concatCore
                simp [hL0, hR0]
                intro h1 h2
                exact absurd ⟨h1, h2⟩ hg
              refine ⟨?_, ?_, fun g _ => (hcc g).trans (hcc (f + 1)).symm⟩
              · rw [hcc (f + 1)]
                exact inv_mkBranch hL hR hL1 hR1
              · rw [hcc (f + 1)]
                rfl
          | Branch rl rr rn rd rli =>
            have hcc : ∀ (g : Nat),
                concatCore (concatF g) (Leaf ls) (Branch rl rr rn rd rli) =
                  mkBranch (Leaf ls) (Branch rl rr rn rd rli) := by
              intro g
              unfold concatCore
              simp [hL0, hR0]
            refine ⟨?_, ?_, fun g _ => (hcc g).trans (hcc (f + 1)).symm⟩
            · rw [hcc (f + 1)]
              exact inv_mkBranch hL hR hL1 hR1
            · rw [hcc (f + 1)]
              rfl
        | Branch nl nr nn nd nli =>
          cases R with
          | Branch rl rr rn rd rli =>
            have hcc : ∀ (g : Nat),
                concatCore (concatF g) (Branch nl nr nn nd nli) (Branch rl rr rn rd rli) =
                  mkBranch (Branch nl nr nn nd nli) (Branch rl rr rn rd rli) := by
              intro g
              unfold concatCore
              simp [hL0, hR0]
            refine ⟨?_, ?_, fun g _ => (hcc g).trans (hcc (f + 1)).symm⟩
            · rw [hcc (f + 1)]
              exact inv_mkBranch hL hR hL1 hR1
            · rw [hcc (f + 1)]
              rfl
          | Leaf rs =>
            cases nr with
            | Branch ml mr mn md mli =>
              have hcc : ∀ (g : Nat),
                  concatCore (concatF g) (Branch nl (Branch ml mr mn md mli) nn nd nli) (Leaf rs) =
                    mkBranch (Branch nl (Branch ml mr mn md mli) nn nd nli) (Leaf rs) := by
                intro g
                unfold concatCore
                simp [hL0, hR0]
              refine ⟨?_, ?_, fun g _ => (hcc g).trans (hcc (f + 1)).symm⟩
              · rw [hcc (f + 1)]
                exact inv_mkBranch hL hR hL1 hR1
              · rw [hcc (f + 1)]
                rfl
            | Leaf ms =>
              by_cases hg : (Leaf ms).charAt (ms.length - 1) ≠ some '\n' ∧
                  ms.length + rs.length < LEAF_MAX
              · -- the right-leaning merge: descend into the left Branch
                have hcc : ∀ (g : Nat),
                    concatCore (concatF g) (Branch nl (Leaf ms) nn nd nli) (Leaf rs) =
                      concatF g nl (Leaf (ms ++ rs)) := by
                  intro g
                  unfold concatCore
                  simp [hL0, hR0, hg]
                obtain ⟨hinvl, hinvm, hlen1, hlen2, -, -, -⟩ := hL
                have hinvM : inv (Leaf (ms ++ rs)) := by
                  refine ⟨leafNl_coalesce hinvm.1 hg.1 hR.1, ?_⟩
                  rw [List.length_append]
                  omega
                have hsz : nl.size + 2 = (Branch nl (Leaf ms) nn nd nli).size := by
                  simp [size]
                  omega
                have hf2 : 2 ≤ f := by
                  have := size_pos nl
                  simp [size] at hf
                  omega
                have hstep : ∀ (g : Nat), nl.size + 2 ≤ g + 1 →
                    concatF (g + 1) nl (Leaf (ms ++ rs)) =
                      concatCore (concatF g) nl (Leaf (ms ++ rs)) := by
                  intro g hgs
                  rw [concatF_succ]
                  have hg1 : 1 ≤ g := by have := size_pos nl; omega
                  rw [reorderLeaf_stable hinvl hg1, reorderLeaf_stable hinvM hg1]
                have hnl : nl.size ≤ f := by omega
                obtain ⟨hi1, hi2, hi3⟩ := ih nl (Leaf (ms ++ rs)) hinvl hinvM hnl
                refine ⟨?_, ?_, ?_⟩
                · rw [hcc (f + 1), hstep f (by omega)]
                  exact hi1
                · rw [hcc (f + 1), hstep f (by omega), hi2]
                  show nl.toString ++ (ms ++ rs) = (nl.toString ++ ms) ++ rs
                  rw [List.append_assoc]
                · intro g hgs
                  rw [hcc g, hcc (f + 1), hstep f (by omega)]
                  obtain ⟨g, rfl⟩ : ∃ g', g = g' + 1 := ⟨g - 1, by omega⟩
                  rw [hstep g (by rw [hsz]; exact hgs)]
                  exact hi3 g (by rw [← hsz] at hgs; omega)
              · have hcc : ∀ (g : Nat),
                    concatCore (concatF g) (Branch nl (Leaf ms) nn nd nli) (Leaf rs) =
                      mkBranch (Branch nl (Leaf ms) nn nd nli) (Leaf rs) := by
                  intro g
                  unfold concatCore
                  simp [hL0, hR0]
                  intro h1 h2
                  exact absurd ⟨h1, h2⟩ hg
                refine ⟨?_, ?_, fun g _ => (hcc g).trans (hcc (f + 1)).symm⟩
                · rw [hcc (f + 1)]
                  exact inv_mkBranch hL hR hL1 hR1
                · rw [hcc (f + 1)]
                  rfl

theorem reorderLeaf_leaf (fs : Str → Text) (s : Str) :
    reorderLeaf fs (Leaf s) = fs s := rfl

theorem size_le_of_len_pos : ∀ {t : Text}, inv t → 1 ≤ t.len →
    t.size ≤ 2 * t.toString.length - 1 := by
  intro t
  induction t with
  | Leaf s =>
    intro h h1
    have : 1 ≤ s.length := h1
    simp [size, toString]
    omega
  | Branch l r n d li ihl ihr =>
    intro h h1
    obtain ⟨hl, hr, hl1, hr1, -, -, -⟩ := h
    have el := inv_len hl
    have er := inv_len hr
    have al := ihl hl hl1
    have ar := ihr hr hr1
    show 1 + l.size + r.size ≤ 2 * (l.toString ++ r.toString).length - 1
    rw [List.length_append]
    omega

theorem size_le : ∀ {t : Text}, inv t → t.size ≤ 2 * t.toString.length + 1 := by
  intro t ht
  by_cases h1 : 1 ≤ t.len
  · have := size_le_of_len_pos ht h1
    omega
  · cases t with
    | Leaf s => simp [size]
    | Branch l r n d li =>
      obtain ⟨-, -, a, b, c, -, -⟩ := ht
      have hn : 1 ≤ (Branch l r n d li).len := by
        show 1 ≤ n
        omega
      exact absurd hn h1

/-- Concatenating the two fresh leaves produced by a `from_str` split:
given the induction hypotheses for the two halves, the result is a fixed
invariant tree with the full content, independent of fuel once the fuel
covers the bound. -/
theorem concat_leaves_spec (s : Str) (target : Nat)
    (h1 : 1 ≤ target) (h2 : target + 1 ≤ s.length)
    (IHl : inv (fromStr (s.take target)) ∧ (fromStr (s.take target)).toString = s.take target ∧
      ∀ (f : Nat), 4 * (s.take target).length + 4 ≤ f →
        fromStrF f (s.take target) = fromStr (s.take target))
    (IHr : inv (fromStr (s.drop target)) ∧ (fromStr (s.drop target)).toString = s.drop target ∧
      ∀ (f : Nat), 4 * (s.drop target).length + 4 ≤ f →
        fromStrF f (s.drop target) = fromStr (s.drop target)) :
    ∃ c, inv c ∧ c.toString = s ∧
      ∀ (f : Nat), 4 * s.length + 3 ≤ f →
        concatF f (Leaf (s.take target)) (Leaf (s.drop target)) = c := by
  obtain ⟨hlI, hlT, hlS⟩ := IHl
  obtain ⟨hrI, hrT, hrS⟩ := IHr
  have hs2 : 2 ≤ s.length := by omega
  have hlen_tk : (s.take target).length = target := by
    rw [List.length_take]
    omega
  have hlen_dp : (s.drop target).length = s.length - target := List.length_drop target s
  have hszL : (fromStr (s.take target)).size ≤ 2 * s.length - 1 := by
    have := size_le hlI
    rw [hlT, hlen_tk] at this
    omega
  obtain ⟨hc1, hc2, hc3⟩ :=
    concatCore_spec (fromStr (s.take target)).size (fromStr (s.take target))
      (fromStr (s.drop target)) hlI hrI (le_refl _)
  refine ⟨concatCore (concatF (fromStr (s.take target)).size) (fromStr (s.take target))
      (fromStr (s.drop target)), hc1, ?_, ?_⟩
  · rw [hc2, hlT, hrT, List.take_append_drop]
  · intro f hf
    obtain ⟨f, rfl⟩ : ∃ g, f = g + 1 := ⟨f - 1, by omega⟩
    rw [concatF_succ, reorderLeaf_leaf, reorderLeaf_leaf]
    rw [hlS f (by rw [hlen_tk]; omega), hrS f (by rw [hlen_dp]; omega)]
    exact (hc3 f (by omega)).symm.symm

/-- Correctness of `from_str` on every input: the result satisfies the
invariant, its content is exactly the input, and any fuel at least
`4 * length + 4` computes the same tree (the recursion terminates within
the bound). -/
theorem fromStr_specAux : ∀ (n : Nat) (s : Str), s.length ≤ n →
    inv (fromStr s) ∧ (fromStr s).toString = s ∧
    (∀ (f : Nat), 4 * s.length + 4 ≤ f → fromStrF f s = fromStr s) := by
  intro n
  induction n using Nat.strong_induction_on with
  | _ n ih =>
    intro s hs
    cases hp : position (fun c => c = '\n') s with
    | some lf =>
      by_cases hguard : lf < s.length - 1
      · -- split just after the first newline
        have unf : ∀ (f : Nat), fromStrF (f + 1) s =
            concatF f (Leaf (s.take (lf + 1))) (Leaf (s.drop (lf + 1))) := by
          intro f
          show (ropeF (f + 1)).1 s = _
          simp only [ropeF, hp, if_pos hguard]
          rfl
        have hlf : lf < s.length := by
          obtain ⟨c, hc, -⟩ := position_some_mem hp
          rcases List.getElem?_eq_some.mp hc with ⟨h, -⟩
          exact h
        have ihl := ih (n - 1) (by omega) (s.take (lf + 1))
          (by rw [List.length_take]; omega)
        have ihr := ih (n - 1) (by omega) (s.drop (lf + 1))
          (by rw [List.length_drop]; omega)
        obtain ⟨c, hc1, hc2, hc3⟩ :=
          concat_leaves_spec s (lf + 1) (by omega) (by omega) ihl ihr
        have hfs : fromStr s = c := by
          show fromStrF (4 * s.length + 3 + 1) s = c
          rw [unf, hc3 (4 * s.length + 3) (le_refl _)]
        refine ⟨hfs ▸ hc1, by rw [hfs, hc2], ?_⟩
        intro f hf
        obtain ⟨f, rfl⟩ : ∃ g, f = g + 1 := ⟨f - 1, by omega⟩
        rw [unf, hc3 f (by omega), hfs]
      · by_cases hbig : LEAF_MAX < s.length
        · -- no early newline but over the leaf bound: split at the midpoint
          have unf : ∀ (f : Nat), fromStrF (f + 1) s =
              concatF f (Leaf (s.take (s.length / 2))) (Leaf (s.drop (s.length / 2))) := by
            intro f
            show (ropeF (f + 1)).1 s = _
            simp only [ropeF, hp, if_neg hguard, if_pos hbig]
            rfl
          have ihl := ih (n - 1) (by unfold LEAF_MAX at hbig; omega) (s.take (s.length / 2))
            (by rw [List.length_take]; unfold LEAF_MAX at hbig; omega)
          have ihr := ih (n - 1) (by unfold LEAF_MAX at hbig; omega) (s.drop (s.length / 2))
            (by rw [List.length_drop]; unfold LEAF_MAX at hbig; omega)
          obtain ⟨c, hc1, hc2, hc3⟩ :=
            concat_leaves_spec s (s.length / 2)
              (by unfold LEAF_MAX at hbig; omega)
              (by unfold LEAF_MAX at hbig; omega) ihl ihr
          have hfs : fromStr s = c := by
            show fromStrF (4 * s.length + 3 + 1) s = c
            rw [unf, hc3 (4 * s.length + 3) (le_refl _)]
          refine ⟨hfs ▸ hc1, by rw [hfs, hc2], ?_⟩
          intro f hf
          obtain ⟨f, rfl⟩ : ∃ g, f = g + 1 := ⟨f - 1, by omega⟩
          rw [unf, hc3 f (by omega), hfs]
        · -- single Leaf: the newline is the final character
          have unf : ∀ (f : Nat), fromStrF (f + 1) s = Leaf s := by
            intro f
            show (ropeF (f + 1)).1 s = _
            simp only [ropeF, hp, if_neg hguard, if_neg hbig]
          have hinv : inv (Leaf s) := by
            refine ⟨?_, by unfold LEAF_MAX at hbig ⊢; omega⟩
            intro i hi heq
            have : (fun c => decide (c = '\n')) '\n' = false :=
              position_some_lt hp i (by omega) '\n' heq
            simpa using this
          have hfs : fromStr s = Leaf s := unf (4 * s.length + 3)
          refine ⟨hfs ▸ hinv, by rw [hfs]; rfl, ?_⟩
          intro f hf
          obtain ⟨f, rfl⟩ : ∃ g, f = g + 1 := ⟨f - 1, by omega⟩
          rw [unf, hfs]
    | none =>
      by_cases hbig : LEAF_MAX < s.length
      · have unf : ∀ (f : Nat), fromStrF (f + 1) s =
            concatF f (Leaf (s.take (s.length / 2))) (Leaf (s.drop (s.length / 2))) := by
          intro f
          show (ropeF (f + 1)).1 s = _
          simp only [ropeF, hp, if_pos hbig]
          rfl
        have ihl := ih (n - 1) (by unfold LEAF_MAX at hbig; omega) (s.take (s.length / 2))
          (by rw [List.length_take]; unfold LEAF_MAX at hbig; omega)
        have ihr := ih (n - 1) (by unfold LEAF_MAX at hbig; omega) (s.drop (s.length / 2))
          (by rw [List.length_drop]; unfold LEAF_MAX at hbig; omega)
        obtain ⟨c, hc1, hc2, hc3⟩ :=
          concat_leaves_spec s (s.length / 2)
            (by unfold LEAF_MAX at hbig; omega)
            (by unfold LEAF_MAX at hbig; omega) ihl ihr
        have hfs : fromStr s = c := by
          show fromStrF (4 * s.length + 3 + 1) s = c
          rw [unf, hc3 (4 * s.length + 3) (le_refl _)]
        refine ⟨hfs ▸ hc1, by rw [hfs, hc2], ?_⟩
        intro f hf
        obtain ⟨f, rfl⟩ : ∃ g, f = g + 1 := ⟨f - 1, by omega⟩
        rw [unf, hc3 f (by omega), hfs]
      · have unf : ∀ (f : Nat), fromStrF (f + 1) s = Leaf s := by
          intro f
          show (ropeF (f + 1)).1 s = _
          simp only [ropeF, hp, if_neg hbig]
        have hinv : inv (Leaf s) := by
          refine ⟨?_, by unfold LEAF_MAX at hbig ⊢; omega⟩
          intro i hi heq
          have : (fun c => decide (c = '\n')) '\n' = false :=
            position_none_all hp i '\n' heq
          simpa using this
        have hfs : fromStr s = Leaf s := unf (4 * s.length + 3)
        refine ⟨hfs ▸ hinv, by rw [hfs]; rfl, ?_⟩
        intro f hf
        obtain ⟨f, rfl⟩ : ∃ g, f = g + 1 := ⟨f - 1, by omega⟩
        rw [unf, hfs]

theorem fromStr_inv (s : Str) : inv (fromStr s) :=
  (fromStr_specAux s.length s (le_refl _)).1

theorem fromStr_toString (s : Str) : (fromStr s).toString = s :=
  (fromStr_specAux s.length s (le_refl _)).2.1

theorem fromStrF_stabilizes (s : Str) (f : Nat) (h : 4 * s.length + 4 ≤ f) :
    fromStrF f s = fromStr s :=
  (fromStr_specAux s.length s (le_refl _)).2.2 f h

theorem new_inv : inv new := by
  refine ⟨?_, by simp [LEAF_MAX]⟩
  intro i hi heq
  simp at hi

theorem toString_new : toString new = [] := rfl

theorem concat_eq_concatCore {a b : Text} (ha : inv a) (hb : inv b) :
    a.concat b = concatCore (concatF a.size) a b := by
  have h1 : 1 ≤ a.size := size_pos a
  have h2 : 1 ≤ b.size := size_pos b
  show concatF (a.size + b.size + 4 * (a.toString.length + b.toString.length) + 8) a b = _
  obtain ⟨g, hg⟩ : ∃ g,
      a.size + b.size + 4 * (a.toString.length + b.toString.length) + 8 = g + 1 ∧
      a.size + 7 ≤ g := ⟨a.size + b.size + 4 * (a.toString.length + b.toString.length) + 7,
        by omega, by omega⟩
  rw [hg.1, concatF_succ, reorderLeaf_stable ha (by omega), reorderLeaf_stable hb (by omega)]
  exact (concatCore_spec a.size a b ha hb (le_refl _)).2.2 g (by omega)

theorem concat_inv {a b : Text} (ha : inv a) (hb : inv b) : inv (a.concat b) := by
  rw [concat_eq_concatCore ha hb]
  exact (concatCore_spec a.size a b ha hb (le_refl _)).1

theorem concat_toString {a b : Text} (ha : inv a) (hb : inv b) :
    (a.concat b).toString = a.toString ++ b.toString := by
  rw [concat_eq_concatCore ha hb]
  exact (concatCore_spec a.size a b ha hb (le_refl _)).2.1

theorem concat_len {a b : Text} (ha : inv a) (hb : inv b) :
    (a.concat b).len = a.len + b.len := by
  rw [inv_len (concat_inv ha hb), concat_toString ha hb, List.length_append,
    inv_len ha, inv_len hb]

theorem concatF_stabilizes {a b : Text} (ha : inv a) (hb : inv b) (f : Nat)
    (hf : a.size + 1 ≤ f) : concatF f a b = a.concat b := by
  have h1 : 1 ≤ a.size := size_pos a
  obtain ⟨g, rfl⟩ : ∃ g, f = g + 1 := ⟨f - 1, by omega⟩
  rw [concatF_succ, reorderLeaf_stable ha (by omega), reorderLeaf_stable hb (by omega),
    concat_eq_concatCore ha hb]
  exact (concatCore_spec a.size a b ha hb (le_refl _)).2.2 g (by omega)

/-- Splitting a slice of an appended list at the append boundary, with the
truncated-subtraction index arithmetic used by `Text::substr`. -/
theorem slice_append (x y : List Char) (a b : Nat) :
    ((x ++ y).drop a).take b =
      (x.drop a).take b ++
        (y.drop (a - x.length)).take (b - ((x.drop a).take b).length) := by
  rw [List.drop_append_eq_append_drop, List.take_append_eq_append_take]
  have he : b - (x.drop a).length = b - ((x.drop a).take b).length := by
    rw [List.length_take, List.length_drop]
    omega
  rw [he]

theorem substr_spec : ∀ (t : Text) (start len : Nat), inv t →
    inv (t.substr start len) ∧
    (t.substr start len).toString = (t.toString.drop start).take len := by
  intro t
  induction t with
  | Leaf s =>
    intro start len h
    refine ⟨⟨?_, ?_⟩, rfl⟩
    · intro i hi heq
      rw [List.length_take, List.length_drop] at hi
      rw [List.getElem?_take, if_pos (show i < len by omega), List.getElem?_drop] at heq
      exact h.1 (start + i) (by omega) heq
    · rw [List.length_take, List.length_drop]
      have := h.2
      omega
  | Branch l r n d li ihl ihr =>
    intro start len h
    obtain ⟨hl, hr, hl1, hr1, hlen, -, -⟩ := h
    have el := inv_len hl
    have er := inv_len hr
    obtain ⟨sl1, sl2⟩ := ihl start len hl
    have eA : (l.substr start len).len = ((l.toString.drop start).take len).length := by
      rw [inv_len sl1, sl2]
    show inv ((Branch l r n d li).substr start len) ∧
      ((Branch l r n d li).substr start len).toString =
        (((l.toString ++ r.toString).drop start).take len)
    by_cases c1 : start = 0 ∧ l.len ≤ len
    · have hLts : l.toString = (l.toString.drop start).take len := by
        rw [c1.1, List.drop_zero]
        exact (List.take_of_length_le (by omega)).symm
      by_cases c2 : start ≤ l.len ∧ l.len + r.len ≤ start + len
      · have e : (Branch l r n d li).substr start len = l.concat r := by
          simp only [substr, if_pos c1, if_pos c2]
        have hRts : r.toString =
            (r.toString.drop (start - l.toString.length)).take
              (len - ((l.toString.drop start).take len).length) := by
          obtain ⟨c1a, c1b⟩ := c1
          obtain ⟨c2a, c2b⟩ := c2
          rw [show start - l.toString.length = 0 by omega, List.drop_zero]
          refine (List.take_of_length_le ?_).symm
          rw [List.length_take, List.length_drop]
          omega
        rw [e]
        refine ⟨concat_inv hl hr, ?_⟩
        rw [concat_toString hl hr, slice_append, ← hRts, ← hLts]
      · have e : (Branch l r n d li).substr start len =
            l.concat (r.substr (if l.len < start then start - l.len else 0)
              (if l.len < len then len - l.len else 0)) := by
          simp only [substr, if_pos c1, if_neg c2]
        obtain ⟨sr1, sr2⟩ := ihr (if l.len < start then start - l.len else 0)
          (if l.len < len then len - l.len else 0) hr
        have hs' : (if l.len < start then start - l.len else 0) = start - l.toString.length := by
          split <;> omega
        have hl'' : (if l.len < len then len - l.len else 0) =
            len - ((l.toString.drop start).take len).length := by
          rw [List.length_take, List.length_drop]
          obtain ⟨c1a, c1b⟩ := c1
          split <;> omega
        have hRts : (r.substr (if l.len < start then start - l.len else 0)
              (if l.len < len then len - l.len else 0)).toString =
            (r.toString.drop (start - l.toString.length)).take
              (len - ((l.toString.drop start).take len).length) := by
          rw [sr2, hs', hl'']
        rw [e]
        refine ⟨concat_inv hl sr1, ?_⟩
        rw [concat_toString hl sr1, slice_append, ← hRts, ← hLts]
    · by_cases c2 : start ≤ l.len ∧ l.len + r.len ≤ start + len
      · have e : (Branch l r n d li).substr start len = (l.substr start len).concat r := by
          simp only [substr, if_neg c1, if_pos c2]
        have hRts : r.toString =
            (r.toString.drop (start - l.toString.length)).take
              (len - ((l.toString.drop start).take len).length) := by
          obtain ⟨c2a, c2b⟩ := c2
          rw [show start - l.toString.length = 0 by omega, List.drop_zero]
          refine (List.take_of_length_le ?_).symm
          rw [List.length_take, List.length_drop]
          omega
        rw [e]
        refine ⟨concat_inv sl1 hr, ?_⟩
        rw [concat_toString sl1 hr, slice_append, ← hRts, ← sl2]
      · have e : (Branch l r n d li).substr start len =
            (l.substr start len).concat
              (r.substr (if l.len < start then start - l.len else 0)
                (if (l.substr start len).len < len then len - (l.substr start len).len else 0)) := by
          simp only [substr, if_neg c1, if_neg c2]
        obtain ⟨sr1, sr2⟩ := ihr (if l.len < start then start - l.len else 0)
          (if (l.substr start len).len < len then len - (l.substr start len).len else 0) hr
        have hs' : (if l.len < start then start - l.len else 0) = start - l.toString.length := by
          split <;> omega
        have hl'' : (if (l.substr start len).len < len then len - (l.substr start len).len else 0) =
            len - ((l.toString.drop start).take len).length := by
          rw [eA]
          split <;> omega
        have hRts : (r.substr (if l.len < start then start - l.len else 0)
              (if (l.substr start len).len < len then len - (l.substr start len).len else 0)).toString =
            (r.toString.drop (start - l.toString.length)).take
              (len - ((l.toString.drop start).take len).length) := by
          rw [sr2, hs', hl'']
        rw [e]
        refine ⟨concat_inv sl1 sr1, ?_⟩
        rw [concat_toString sl1 sr1, slice_append, ← hRts, ← sl2]

theorem substr_take_part {t : Text} (ht : inv t) (i : Nat) :
    (t.substr 0 i).toString = t.toString.take i := by
  rw [(substr_spec t 0 i ht).2, List.drop_zero]

theorem substr_drop_part {t : Text} (ht : inv t) (i : Nat) (h : i ≤ t.len) :
    (t.substr i (t.len - i)).toString = t.toString.drop i := by
  rw [(substr_spec t i (t.len - i) ht).2]
  refine List.take_of_length_le ?_
  rw [List.length_drop, ← inv_len ht]

theorem insert_toString {t u : Text} (ht : inv t) (hu : inv u) {i : Nat} (h : i ≤ t.len) :
    (t.insert i u).toString = t.toString.take i ++ u.toString ++ t.toString.drop i := by
  show (((t.substr 0 i).concat u).concat (t.substr i (t.len - i))).toString = _
  have s1 := (substr_spec t 0 i ht).1
  have s2 := (substr_spec t i (t.len - i) ht).1
  rw [concat_toString (concat_inv s1 hu) s2, concat_toString s1 hu,
    substr_take_part ht i, substr_drop_part ht i h, List.append_assoc]

theorem delete_toString {t : Text} (ht : inv t) {i c : Nat} (h : i + c ≤ t.len) :
    (t.delete i c).toString = t.toString.take i ++ t.toString.drop (i + c) := by
  show ((t.substr 0 i).concat (t.substr (i + c) (t.len - (i + c)))).toString = _
  have s1 := (substr_spec t 0 i ht).1
  have s2 := (substr_spec t (i + c) (t.len - (i + c)) ht).1
  rw [concat_toString s1 s2, substr_take_part ht i, substr_drop_part ht (i + c) h]

theorem eq_new_of_len_zero : ∀ {t : Text}, inv t → t.len = 0 → t = new := by
  intro t ht h0
  cases t with
  | Leaf s =>
    have hs : s.length = 0 := h0
    show Leaf s = Leaf []
    rw [List.eq_nil_of_length_eq_zero hs]
  | Branch l r n d li =>
    obtain ⟨-, -, a, b, c, -, -⟩ := ht
    have : n = 0 := h0
    omega

theorem concat_new_left {t : Text} (ht : inv t) : new.concat t = t := by
  have h0 : new.len = 0 := rfl
  rw [concat_eq_concatCore new_inv ht]
  unfold concatCore
  rw [if_pos h0]

theorem concat_new_right {t : Text} (ht : inv t) : t.concat new = t := by
  by_cases ht0 : t.len = 0
  · rw [eq_new_of_len_zero ht ht0]
    exact concat_new_left new_inv
  · have h0 : new.len = 0 := rfl
    rw [concat_eq_concatCore ht new_inv]
    unfold concatCore
    rw [if_neg ht0, if_pos h0]

theorem beq_iff_eq : ∀ (a b : Text), beq a b = true ↔ a = b := by
  intro a
  induction a with
  | Leaf s =>
    intro b
    cases b with
    | Leaf t => simp [beq]
    | Branch l2 r2 n2 d2 li2 => simp [beq]
  | Branch l r n d li ihl ihr =>
    intro b
    cases b with
    | Leaf t => simp [beq]
    | Branch l2 r2 n2 d2 li2 =>
      simp [beq, Bool.and_eq_true, ihl, ihr]
      tauto

theorem substr_inv {t : Text} (ht : inv t) (start len : Nat) :
    inv (t.substr start len) :=
  (substr_spec t start len ht).1

theorem insert_inv {t u : Text} (ht : inv t) (hu : inv u) (i : Nat) :
    inv (t.insert i u) :=
  concat_inv (concat_inv (substr_inv ht 0 i) hu) (substr_inv ht i (t.len - i))

theorem delete_inv {t : Text} (ht : inv t) (i c : Nat) : inv (t.delete i c) :=
  concat_inv (substr_inv ht 0 i) (substr_inv ht (i + c) (t.len - (i + c)))

/-! ### Claim theorems -/

/-- C1: for every character sequence `s`, constructing a Text from `s` and
reading its content front-to-back returns exactly `s`:
`to_string(from_str(s)) = s`. -/
theorem C1_from_str_to_string_round_trip (s : Str) : (fromStr s).toString = s :=
  fromStr_toString s

/-- C2: for every constructible Text `t` (characterized by `inv`) and every
pair `(start, len)` with `start + len ≤ len t`, the content of
`substr t start len` is the character-indexed slice
`content(t)[start .. start+len]`. -/
theorem C2_substr_content (t : Text) (start len : Nat) (ht : inv t)
    (hin : start + len ≤ t.len) :
    (t.substr start len).toString = (t.toString.drop start).take len :=
  (substr_spec t start len ht).2

theorem C2_substr_content_witness :
    ((fromStr ("abcd".toList)).substr 1 2).toString =
      ((fromStr ("abcd".toList)).toString.drop 1).take 2 :=
  C2_substr_content _ 1 2 (by decide) (by decide)

/-- C3 counterexample: two Texts built from the same content by
differently associated concatenations have equal content but compare
unequal, so equality (for values that are not the same shared node) is
not content-based. -/
theorem C3_content_equality_counterexample :
    beq (((fromStr ("a\n".toList)).concat (fromStr ("b\n".toList))).concat
        (fromStr ("c".toList)))
      ((fromStr ("a\n".toList)).concat ((fromStr ("b\n".toList)).concat
        (fromStr ("c".toList)))) = false ∧
    ((((fromStr ("a\n".toList)).concat (fromStr ("b\n".toList))).concat
        (fromStr ("c".toList)))).toString =
      ((fromStr ("a\n".toList)).concat ((fromStr ("b\n".toList)).concat
        (fromStr ("c".toList)))).toString := by
  decide

/-- C3 amended: for Text values that are not the same shared node,
equality is deep, recursive and structural: `a == b` holds exactly when
`a` and `b` are identical trees (same shape, equal leaf chunks, equal
cached metadata); hence it implies content equality, but content
equality alone does not imply `a == b` for differently shaped trees. -/
theorem C3_structural_equality (a b : Text) :
    (beq a b = true ↔ a = b) ∧ (beq a b = true → a.toString = b.toString) :=
  ⟨beq_iff_eq a b, fun h => by rw [(beq_iff_eq a b).mp h]⟩

theorem C3_structural_equality_witness :
    (beq (fromStr ("a".toList)) (fromStr ("a".toList)) = true ↔
      fromStr ("a".toList) = fromStr ("a".toList)) ∧
    (fromStr ("a".toList)).toString = (fromStr ("a".toList)).toString :=
  ⟨(C3_structural_equality _ _).1,
   (C3_structural_equality _ _).2 ((C3_structural_equality _ _).1.mpr rfl)⟩

/-- C4: for every constructible Text `t` and every `(start, len)` with
`start + len > len t`, `substr t start len` does not fail, and the length
of the result is `len t - start` (truncated at zero): over-length slice
requests are silently clamped to the available content. -/
theorem C4_substr_clamping (t : Text) (start len : Nat) (ht : inv t)
    (hover : t.len < start + len) :
    (t.substr start len).len = t.len - start := by
  have h := substr_spec t start len ht
  rw [inv_len h.1, h.2, List.length_take, List.length_drop, ← inv_len ht]
  omega

theorem C4_substr_clamping_witness :
    ((fromStr ("ab".toList)).substr 1 5).len = (fromStr ("ab".toList)).len - 1 :=
  C4_substr_clamping _ 1 5 (by decide) (by decide)

/-- C5 divergence exhibit: the text built from "ab\ncd" has two logical
lines, "ab\n" and the final partial line "cd", but `line 1` returns
`none`: the final line (the one with no following newline) is reported
as nonexistent, contradicting the documented contract of `line`. -/
theorem C5_line_drops_trailing_line :
    linesOf ((fromStr ("ab\ncd".toList)).toString) = ["ab\n".toList, "cd".toList] ∧
    (fromStr ("ab\ncd".toList)).line 1 = none := by
  decide

/-- C6: edit-engine content laws for constructible Texts: inserting `u`
at `i ≤ len t` yields `content(t)[0..i] ++ content(u) ++ content(t)[i..]`,
and deleting `c` characters at `i` with `i + c ≤ len t` yields
`content(t)[0..i] ++ content(t)[i+c..]`. -/
theorem C6_insert_delete_content (t u : Text) (i c : Nat) (ht : inv t) (hu : inv u) :
    (i ≤ t.len →
      (t.insert i u).toString = t.toString.take i ++ u.toString ++ t.toString.drop i) ∧
    (i + c ≤ t.len →
      (t.delete i c).toString = t.toString.take i ++ t.toString.drop (i + c)) :=
  ⟨fun h => insert_toString ht hu h, fun h => delete_toString ht h⟩

theorem C6_insert_delete_content_witness :
    ((fromStr ("abcd".toList)).insert 2 (fromStr ("XY".toList))).toString =
      (fromStr ("abcd".toList)).toString.take 2 ++ (fromStr ("XY".toList)).toString ++
        (fromStr ("abcd".toList)).toString.drop 2 ∧
    ((fromStr ("abcd".toList)).delete 1 2).toString =
      (fromStr ("abcd".toList)).toString.take 1 ++
        (fromStr ("abcd".toList)).toString.drop (1 + 2) :=
  ⟨(C6_insert_delete_content _ _ 2 0 (by decide) (by decide)).1 (by decide),
   (C6_insert_delete_content _ (fromStr ("XY".toList)) 1 2 (by decide) (by decide)).2
     (by decide)⟩

/-- C7: the empty Text is an identity element for concatenation on
constructible values: `concat new t` and `concat t new` both return `t`
unchanged. -/
theorem C7_concat_empty_identity (t : Text) (ht : inv t) :
    Text.new.concat t = t ∧ t.concat Text.new = t :=
  ⟨concat_new_left ht, concat_new_right ht⟩

theorem C7_concat_empty_identity_witness :
    Text.new.concat (fromStr ("hi".toList)) = fromStr ("hi".toList) ∧
    (fromStr ("hi".toList)).concat Text.new = fromStr ("hi".toList) :=
  C7_concat_empty_identity _ (by decide)

/-- C8: every operation is a bounded computation: `from_str s` needs at
most `4 * length s + 4` nested calls (any larger fuel computes the same
value), and `concat a b` on constructible values needs at most
`size a + 1`, so both recursions terminate on every input with no error
path. -/
theorem C8_bounded_total_computation :
    (∀ (s : Str) (f : Nat), 4 * s.length + 4 ≤ f → fromStrF f s = fromStr s) ∧
    (∀ (a b : Text) (f : Nat), inv a → inv b → a.size + 1 ≤ f →
      concatF f a b = a.concat b) :=
  ⟨fromStrF_stabilizes, fun a b f ha hb hf => concatF_stabilizes ha hb f hf⟩

theorem C8_bounded_total_computation_witness :
    fromStrF 100 ("hi".toList) = fromStr ("hi".toList) ∧
    concatF 100 (fromStr ("a".toList)) (fromStr ("b".toList)) =
      (fromStr ("a".toList)).concat (fromStr ("b".toList)) :=
  ⟨C8_bounded_total_computation.1 _ 100 (by decide),
   C8_bounded_total_computation.2 _ _ 100 (by decide) (by decide) (by decide)⟩

/-- C9: the leaf/line-boundary invariant `inv` (each Leaf chunk has at
most one newline, and only as its final character, plus the cached
aggregates and nonempty-children facts that make it inductive) holds for
`new` and `from_str` and is preserved by `concat`, `substr`,
`take_left`, `take_right`, `insert` and `delete`; `inv` implies the
claimed leaf newline discipline on every Leaf of the tree. -/
theorem C9_leaf_newline_invariant :
    inv Text.new ∧
    (∀ (s : Str), inv (fromStr s)) ∧
    (∀ (a b : Text), inv a → inv b → inv (a.concat b)) ∧
    (∀ (t : Text) (start len : Nat), inv t → inv (t.substr start len)) ∧
    (∀ (t : Text) (c : Nat), inv t → inv (t.takeLeft c).1 ∧ inv (t.takeLeft c).2) ∧
    (∀ (t : Text) (c : Nat), inv t → inv (t.takeRight c).1 ∧ inv (t.takeRight c).2) ∧
    (∀ (t u : Text) (i : Nat), inv t → inv u → inv (t.insert i u)) ∧
    (∀ (t : Text) (i c : Nat), inv t → inv (t.delete i c)) ∧
    (∀ (t : Text), inv t → leafNlT t) := by
  refine ⟨new_inv, fromStr_inv, fun a b ha hb => concat_inv ha hb,
    fun t s l ht => substr_inv ht s l, ?_, ?_,
    fun t u i ht hu => insert_inv ht hu i, fun t i c ht => delete_inv ht i c,
    fun t ht => inv_leafNlT ht⟩
  · intro t c ht
    unfold takeLeft
    split
    · exact ⟨ht, new_inv⟩
    · exact ⟨substr_inv ht 0 c, substr_inv ht c (t.len - c)⟩
  · intro t c ht
    unfold takeRight
    split
    · exact ⟨new_inv, ht⟩
    · exact ⟨substr_inv ht 0 (t.len - c), substr_inv ht (t.len - c) c⟩

theorem C9_leaf_newline_invariant_witness :
    inv ((fromStr ("a\n".toList)).concat (fromStr ("b".toList))) ∧
    leafNlT (fromStr ("a\nb".toList)) :=
  ⟨C9_leaf_newline_invariant.2.2.1 _ _ (by decide) (by decide),
   C9_leaf_newline_invariant.2.2.2.2.2.2.2.2 _ (by decide)⟩

/-- C10: the suffix computed inside `insert` uses the unguarded `usize`
subtraction `self.len() - index`; with the subtraction checked (debug
semantics, `insertChecked`) the operation underflows exactly when
`index > len t`, and under the precondition `index ≤ len t` the
underflow branch is unreachable and the operation is total, agreeing
with `insert`. -/
theorem C10_insert_index_precondition (t u : Text) (i : Nat) :
    (t.len < i → insertChecked t i u = none) ∧
    (i ≤ t.len → insertChecked t i u = some (t.insert i u)) := by
  constructor
  · intro h
    unfold insertChecked
    rw [if_neg (by omega)]
  · intro h
    unfold insertChecked
    rw [if_pos h]
    rfl

theorem C10_insert_index_precondition_witness :
    insertChecked (fromStr ("ab".toList)) 5 Text.new = none ∧
    insertChecked (fromStr ("ab".toList)) 1 Text.new =
      some ((fromStr ("ab".toList)).insert 1 Text.new) :=
  ⟨(C10_insert_index_precondition _ Text.new 5).1 (by decide),
   (C10_insert_index_precondition _ Text.new 1).2 (by decide)⟩

end Text
